import Mathlib

/-!
Verification of the unwrap library (Option, Result, Collection, teaCall)
against its specification.  The TypeScript source is embedded shallowly:

* JavaScript runtime values stored in a `Collection` are modelled by the
  inductive type `JSVal`; its derived decidable equality models the strict
  equality operator `===` of JavaScript (object references compare by
  identity, modelled by a numeric id).
* `Option<T>` and `Result<T, E>` are modelled by the inductive types
  `TsOption` and `TsResult`; the mutable discriminant/payload pair of the
  source classes always satisfies the variant invariant, so the immutable
  combinators factor through this sum-type view.
* A thrown JavaScript exception is modelled by `Except JSErr`; an operation
  of the source that may throw is embedded as a function into `Except`,
  an operation that catches internally returns `TsResult`.
* `Collection<K, V>` wraps a JavaScript `Map`; the insertion-ordered map is
  modelled by a list of key/value pairs (`CollectionTS`), with `Map.set`
  semantics (overwrite in place keeps the position, a fresh key appends).
-/

/-- A JavaScript runtime value, as far as the library observes it:
primitives, object references (identity given by `id`), function references
(not structured-cloneable) and bigints (not JSON-serializable). -/
inductive JSVal where
  | undef : JSVal
  | nullV : JSVal
  | boolV : Bool → JSVal
  | numV : Int → JSVal
  | strV : String → JSVal
  | obj : Nat → JSVal
  | func : Nat → JSVal
  | bigintV : Int → JSVal
deriving DecidableEq, Repr

/-- A thrown JavaScript exception, distinguished by kind and message. -/
inductive JSErr where
  | error : String → JSErr
  | dataCloneError : String → JSErr
  | typeError : String → JSErr
deriving DecidableEq, Repr

/-- The `Option<T>` type of src/option.ts: discriminant `Some`/`None`
with a payload that is only valid under `Some`. -/
inductive TsOption (α : Type u) where
  | None : TsOption α
  | Some : α → TsOption α
deriving DecidableEq, Repr

/-- The `Result<T, E>` type of src/result.ts: discriminant `Ok`/`Err`
with exactly one valid payload slot. -/
inductive TsResult (α : Type u) (ε : Type v) where
  | Err : ε → TsResult α ε
  | Ok : α → TsResult α ε
deriving DecidableEq, Repr

namespace TsOption

/-- Method `isSome` of src/option.ts. -/
def isSome : TsOption α → Bool
  | .None => false
  | .Some _ => true

/-- Method `isNone` of src/option.ts. -/
def isNone : TsOption α → Bool
  | .None => true
  | .Some _ => false

/-- Method `expect(msg)` of src/option.ts: throws `new Error(msg)` on
`None`, otherwise returns the payload. -/
def expectE (msg : String) : TsOption α → Except JSErr α
  | .None => .error (.error msg)
  | .Some v => .ok v

/-- Method `unwrap` of src/option.ts, which delegates to `expect` with its
fixed message. -/
def unwrapE : TsOption α → Except JSErr α :=
  expectE "called `unwrap()` on a `None`"

/-- Method `transpose` of src/option.ts (lines 528-534):
`None ↦ Ok(None)`, `Some(Ok(u)) ↦ Ok(Some(u))`, `Some(Err(e)) ↦ Err(e)`. -/
def transpose : TsOption (TsResult α ε) → TsResult (TsOption α) ε
  | .None => .Ok .None
  | .Some (.Ok u) => .Ok (.Some u)
  | .Some (.Err e) => .Err e

end TsOption

namespace TsResult

/-- Method `isOk` of src/result.ts. -/
def isOk : TsResult α ε → Bool
  | .Ok _ => true
  | .Err _ => false

/-- Method `transpose` of src/result.ts (lines 378-382):
`Err(e) ↦ Some(Err(e))`, `Ok(Some(u)) ↦ Some(Ok(u))`, `Ok(None) ↦ None`. -/
def transpose : TsResult (TsOption α) ε → TsOption (TsResult α ε)
  | .Err e => .Some (.Err e)
  | .Ok (.Some u) => .Some (.Ok u)
  | .Ok .None => .None

end TsResult

/-- Function `teaCall` of src/tea_call.ts: runs the callback inside
`try`/`catch` and converts a normal return into `Ok` and a thrown
exception into `Err`.  The callback together with its spread argument
list is modelled as one function from the argument tuple into `Except`. -/
def teaCall (callbackFn : α → Except ε β) (args : α) : TsResult β ε :=
  match callbackFn args with
  | .ok result => .Ok result
  | .error error => .Err error

/-! ## The Collection model

The `Map<K, V>` inside `Collection` is modelled by an insertion-ordered
list of key/value pairs.  Keys and values are `JSVal`; key equality is the
SameValueZero equality of `Map`, which coincides with `===` on the values
the model covers. -/

/-- Entry list of a JavaScript `Map` over `JSVal` keys and values. -/
abbrev EntryList := List (JSVal × JSVal)

/-- Test `Map.has` on the entry list. -/
def hasKey (l : EntryList) (k : JSVal) : Bool :=
  l.any fun p => p.1 == k

/-- Result of `Map.get` on the entry list, `none` when the key is absent
(the stored value itself may be `undef`). -/
def lookupKey (l : EntryList) (k : JSVal) : Option JSVal :=
  (l.find? fun p => p.1 == k).map fun p => p.2

/-- Effect of `Map.set` on the entry list: overwrite in place when the key
is present (keeping its position), otherwise append a fresh entry. -/
def mapSet (l : EntryList) (k : JSVal) (v : JSVal) : EntryList :=
  if l.any fun p => p.1 == k then
    l.map fun p => if p.1 == k then (p.1, v) else p
  else
    l ++ [(k, v)]

/-- Effect of `Map.delete` on the entry list. -/
def mapDelete (l : EntryList) (k : JSVal) : EntryList :=
  l.filter fun p => !(p.1 == k)

/-- Method `get` of src/collection.ts (lines 251-254): reads the inner map
and returns `None()` when the read produced `undefined`, which happens both
when the key is absent and when the stored value is the value `undefined`. -/
def getList (l : EntryList) (k : JSVal) : TsOption JSVal :=
  match lookupKey l k with
  | some v => if v == JSVal.undef then .None else .Some v
  | none => .None

/-- Loop of the static method `Collection.from` (lines 46-53): a fresh
collection into which every pair of the iterable is `set` in order. -/
def fromList (l : EntryList) : EntryList :=
  l.foldl (fun acc p => mapSet acc p.1 p.2) []

/-- The `Collection<K, V>` of src/collection.ts, at key/value type `JSVal`:
a wrapper around the inner `Map`, modelled by its entry list. -/
structure CollectionTS where
  entries : EntryList
deriving DecidableEq, Repr

namespace CollectionTS

/-- Getter `size` (lines 25-27): the size of the inner map. -/
def size (c : CollectionTS) : Nat :=
  c.entries.length

/-- Static method `from` (lines 46-53). -/
def fromIt (l : EntryList) : CollectionTS :=
  ⟨fromList l⟩

/-- Method `set` (lines 488-491): upsert into the inner map (the source
also returns `this` for chaining; the model returns the new state). -/
def set (c : CollectionTS) (k v : JSVal) : CollectionTS :=
  ⟨mapSet c.entries k v⟩

/-- Method `has` (lines 314-316). -/
def has (c : CollectionTS) (k : JSVal) : Bool :=
  hasKey c.entries k

/-- Method `get` (lines 251-254). -/
def get (c : CollectionTS) (k : JSVal) : TsOption JSVal :=
  getList c.entries k

/-- Method `delete` (lines 102-104): removes the entry and reports whether
one existed (state and boolean result paired). -/
def del (c : CollectionTS) (k : JSVal) : CollectionTS × Bool :=
  (⟨mapDelete c.entries k⟩, hasKey c.entries k)

/-- Method `diff` (lines 121-130): iterate the own entries and `set` into a
fresh collection those whose key the other collection does not have. -/
def diff (c other : CollectionTS) : CollectionTS :=
  ⟨c.entries.foldl
    (fun acc p => if hasKey other.entries p.1 then acc else mapSet acc p.1 p.2)
    []⟩

/-- Method `symDiff` (lines 530-546): the same two loops sharing one
result collection, first the own entries against the other, then the
other entries against the own. -/
def symDiff (c other : CollectionTS) : CollectionTS :=
  ⟨other.entries.foldl
    (fun acc p => if hasKey c.entries p.1 then acc else mapSet acc p.1 p.2)
    (c.entries.foldl
      (fun acc p => if hasKey other.entries p.1 then acc else mapSet acc p.1 p.2)
      [])⟩

/-- Method `intersect` (lines 369-381): for each own entry whose key the
other has, store `resolve(value, other.get(key).unwrap(), key)`.  The
`unwrap` may throw, so the loop is embedded in `Except`. -/
def intersect (c other : CollectionTS)
    (resolve : JSVal → JSVal → JSVal → JSVal) : Except JSErr CollectionTS := do
  let l ← c.entries.foldlM
    (fun acc p =>
      if hasKey other.entries p.1 then do
        let otherValue ← (other.get p.1).unwrapE
        pure (mapSet acc p.1 (resolve p.2 otherValue p.1))
      else
        pure acc)
    ([] : EntryList)
  pure ⟨l⟩

end CollectionTS

/-- Loop body of method `union` (lines 580-594), by recursion over the
entries of the other collection: when the accumulator has the key and the
unwrapped current value differs (`!==`) from the incoming one, store the
resolver result (the source unwraps a second time for the resolver
argument); otherwise store the incoming value.  Both unwraps may throw. -/
def unionLoop (resolve : JSVal → JSVal → JSVal → JSVal) :
    EntryList → EntryList → Except JSErr EntryList
  | acc, [] => .ok acc
  | acc, (k, v) :: rest =>
    if hasKey acc k then
      match (getList acc k).unwrapE with
      | .error e => .error e
      | .ok current =>
        if current ≠ v then
          match (getList acc k).unwrapE with
          | .error e => .error e
          | .ok current' =>
            unionLoop resolve (mapSet acc k (resolve current' v k)) rest
        else
          unionLoop resolve (mapSet acc k v) rest
    else
      unionLoop resolve (mapSet acc k v) rest

/-- Instrumented copy of `unionLoop` that additionally records, in order,
the keys at which the resolver is invoked. -/
def unionLoopCalls (resolve : JSVal → JSVal → JSVal → JSVal) :
    EntryList → List JSVal → EntryList → Except JSErr (EntryList × List JSVal)
  | acc, calls, [] => .ok (acc, calls)
  | acc, calls, (k, v) :: rest =>
    if hasKey acc k then
      match (getList acc k).unwrapE with
      | .error e => .error e
      | .ok current =>
        if current ≠ v then
          match (getList acc k).unwrapE with
          | .error e => .error e
          | .ok current' =>
            unionLoopCalls resolve (mapSet acc k (resolve current' v k))
              (calls ++ [k]) rest
        else
          unionLoopCalls resolve (mapSet acc k v) calls rest
    else
      unionLoopCalls resolve (mapSet acc k v) calls rest

namespace CollectionTS

/-- Method `union` (lines 580-594): start from `Collection.from(this)` and
run the loop over the entries of the other collection. -/
def union (c other : CollectionTS)
    (resolve : JSVal → JSVal → JSVal → JSVal) : Except JSErr CollectionTS :=
  (unionLoop resolve (fromList c.entries) other.entries).map fun l => ⟨l⟩

/-- The keys at which `union` invokes the resolver, via the instrumented
loop. -/
def unionCallKeys (c other : CollectionTS)
    (resolve : JSVal → JSVal → JSVal → JSVal) : Except JSErr (List JSVal) :=
  (unionLoopCalls resolve (fromList c.entries) [] other.entries).map
    fun p => p.2

end CollectionTS

/-- Effect of `structuredClone` on a modelled value: a function reference
raises `DataCloneError`; an object reference is deep-copied into a fresh
reference drawn from the id counter `n`; primitives are returned as they
are.  The counter threads through so that successive clones are distinct. -/
def cloneVal : JSVal → Nat → Except JSErr (JSVal × Nat)
  | .func _, _ => .error (.dataCloneError "function could not be cloned")
  | .obj _, n => .ok (.obj n, n + 1)
  | v, n => .ok (v, n)

/-- Loop of method `clone` (lines 80-91) inside the `try` block: `set` each
key with the structured clone of its value into a fresh collection; a
`DataCloneError` aborts the loop. -/
def cloneLoop : EntryList → EntryList → Nat → Except JSErr (EntryList × Nat)
  | [], acc, n => .ok (acc, n)
  | (k, v) :: rest, acc, n =>
    match cloneVal v n with
    | .error e => .error e
    | .ok (v', n') => cloneLoop rest (mapSet acc k v') n'

namespace CollectionTS

/-- Method `clone` (lines 80-91): the loop inside `try`, with the `catch`
converting a thrown error into `Err`.  The id counter `n` supplies the
identities of the freshly allocated copies. -/
def clone (c : CollectionTS) (n : Nat) : TsResult CollectionTS JSErr :=
  match cloneLoop c.entries [] n with
  | .ok (l, _) => .Ok ⟨l⟩
  | .error e => .Err e

end CollectionTS

/-- Effect of `JSON.stringify` on a modelled value appearing inside an
array: bigints raise `TypeError`; `undefined` and function references
serialize as `null` in array position; object references are opaque in the
model and serialize as an empty object. -/
def jsonOfVal : JSVal → Except JSErr String
  | .bigintV _ => .error (.typeError "Do not know how to serialize a BigInt")
  | .undef => .ok "null"
  | .func _ => .ok "null"
  | .nullV => .ok "null"
  | .boolV b => .ok (if b then "true" else "false")
  | .numV n => .ok (toString n)
  | .strV s => .ok ("\"" ++ s ++ "\"")
  | .obj _ => .ok "\x7b\x7d"

/-- Serialization of one `[key, value]` pair of the entry array. -/
def jsonOfEntry (p : JSVal × JSVal) : Except JSErr String :=
  match jsonOfVal p.1 with
  | .error e => .error e
  | .ok k =>
    match jsonOfVal p.2 with
    | .error e => .error e
    | .ok v => .ok ("[" ++ k ++ "," ++ v ++ "]")

/-- Serialization of every entry of `Array.from(this.entries())`, failing
as soon as one entry fails. -/
def jsonParts : EntryList → Except JSErr (List String)
  | [] => .ok []
  | p :: rest =>
    match jsonOfEntry p with
    | .error e => .error e
    | .ok s =>
      match jsonParts rest with
      | .error e => .error e
      | .ok ss => .ok (s :: ss)

/-- Effect of `JSON.stringify(Array.from(this.entries()))`. -/
def jsonOfEntries (l : EntryList) : Except JSErr String :=
  match jsonParts l with
  | .error e => .error e
  | .ok parts => .ok ("[" ++ String.intercalate "," parts ++ "]")

namespace CollectionTS

/-- Method `toJSON` (lines 556-562): stringify the entry array inside
`try`, with the `catch` converting a thrown error into `Err`. -/
def toJSON (c : CollectionTS) : TsResult String JSErr :=
  match jsonOfEntries c.entries with
  | .ok s => .Ok s
  | .error e => .Err e

end CollectionTS

/-- One call of `next()` on the generator of method `iter` (lines
395-401), as a step on the remaining entries: while entries remain the
generator yields `Some(entry)` (done=false); once exhausted it returns
`None()` together with the done signal. -/
def iterNext : EntryList → TsOption (JSVal × JSVal) × Bool × EntryList
  | [] => (.None, true, [])
  | e :: rest => (.Some e, false, rest)

/-- The full sequence of `next()` results of the generator, from a list of
remaining entries, each paired with its done flag; the trace ends with the
first done=true result. -/
def iterTrace : EntryList → List (TsOption (JSVal × JSVal) × Bool)
  | [] => [(.None, true)]
  | e :: rest => (.Some e, false) :: iterTrace rest

namespace CollectionTS

/-- Method `iter` (lines 395-401), observed through the sequence of
results its generator delivers. -/
def iter (c : CollectionTS) : List (TsOption (JSVal × JSVal) × Bool) :=
  iterTrace c.entries

end CollectionTS

/-- Test for a function reference, the one kind of modelled value that
`structuredClone` rejects. -/
def isFunc : JSVal → Bool
  | .func _ => true
  | _ => false

/-- Test for a bigint, the one kind of modelled value that
`JSON.stringify` rejects. -/
def isBigint : JSVal → Bool
  | .bigintV _ => true
  | _ => false

/-- Relation between a value and its structured clone: object references
clone to object references (with a possibly different identity), every
other value clones to itself. -/
def cloneShape : JSVal → JSVal → Bool
  | .obj _, .obj _ => true
  | v, w => v == w

/-- Modelled from the claim wording for C3: the expected content of
`a.union(b, resolve)` at a key — a key only in `a` keeps its value, a key
only in `b` receives the incoming value, and a key in both keeps the
common value when the two values are identical (`===`) and otherwise
stores the resolver result. -/
def unionSpecLookup (a b : CollectionTS)
    (resolve : JSVal → JSVal → JSVal → JSVal) (k : JSVal) : Option JSVal :=
  match lookupKey a.entries k, lookupKey b.entries k with
  | some va, some vb => some (if va = vb then vb else resolve va vb k)
  | some va, none => some va
  | none, some vb => some vb
  | none, none => none

/-- Modelled from the claim wording for C3: the keys for which the claim
says the resolver is invoked — the keys present in both collections whose
two values differ by identity, in the iteration order of `b`. -/
def unionCallsSpec (a b : CollectionTS) : List JSVal :=
  (b.entries.filter fun p =>
    match lookupKey a.entries p.1 with
    | some va => decide (va ≠ p.2)
    | none => false).map Prod.fst

/-! ## Theorems -/

/-- C4: `transpose` is an involution between `Option<Result<U, E>>` and
`Result<Option<U>, E>`: both round trips are the identity, with
`None ↦ Ok(None)`, `Some(Ok(u)) ↦ Ok(Some(u))`, `Some(Err(e)) ↦ Err(e)`
and conversely. -/
theorem transpose_involution (α : Type u) (ε : Type v)
    (o : TsOption (TsResult α ε)) (r : TsResult (TsOption α) ε) :
    o.transpose.transpose = o ∧ r.transpose.transpose = r ∧
    (TsOption.None : TsOption (TsResult α ε)).transpose = .Ok .None ∧
    (∀ u : α, (TsOption.Some (TsResult.Ok (ε := ε) u)).transpose = .Ok (.Some u)) ∧
    (∀ e : ε, (TsOption.Some (TsResult.Err (α := α) e)).transpose = .Err e) := by
  refine ⟨?_, ?_, rfl, fun u => rfl, fun e => rfl⟩
  · rcases o with _ | r₀
    · rfl
    · rcases r₀ with e | u <;> rfl
  · rcases r with e | o₀
    · rfl
    · rcases o₀ with _ | u <;> rfl

/-- C6: `Some(v).unwrap()` returns `v`, and `None().unwrap()` throws an
`Error` whose message identifies unwrap-on-None. -/
theorem unwrap_some_and_none (α : Type u) (v : α) :
    (TsOption.Some v).unwrapE = .ok v ∧
    (TsOption.None : TsOption α).unwrapE =
      .error (.error "called `unwrap()` on a `None`") :=
  ⟨rfl, rfl⟩

/-- C8: `teaCall(f, ...args)` returns `Ok(r)` exactly when `f(...args)`
returns `r` normally and `Err(e)` exactly when `f` throws `e`; in
particular it returns `Err` iff the callback throws, and it always
returns one of the two (no exception escapes `teaCall` itself). -/
theorem teaCall_spec (α β ε : Type) (f : α → Except ε β) (args : α) :
    (∀ r : β, teaCall f args = .Ok r ↔ f args = .ok r) ∧
    (∀ e : ε, teaCall f args = .Err e ↔ f args = .error e) ∧
    ((∃ r, teaCall f args = .Ok r) ∨ (∃ e, teaCall f args = .Err e)) := by
  refine ⟨fun r => ?_, fun e => ?_, ?_⟩
  · unfold teaCall
    cases h : f args with
    | ok x => simp
    | error x => simp
  · unfold teaCall
    cases h : f args with
    | ok x => simp
    | error x => simp
  · unfold teaCall
    cases h : f args with
    | ok x => exact Or.inl ⟨x, rfl⟩
    | error x => exact Or.inr ⟨x, rfl⟩


/-! ## Lemmas about the map primitives -/

theorem hasKey_cons (q : JSVal × JSVal) (rest : EntryList) (k : JSVal) :
    hasKey (q :: rest) k = ((q.1 == k) || hasKey rest k) := by
  unfold hasKey
  exact List.any_cons

theorem lookupKey_cons (q : JSVal × JSVal) (rest : EntryList) (k : JSVal) :
    lookupKey (q :: rest) k = if q.1 = k then some q.2 else lookupKey rest k := by
  unfold lookupKey
  rw [List.find?_cons]
  by_cases h : q.1 = k
  · rw [show (q.1 == k) = true by simp [h], if_pos h]
    rfl
  · rw [show (q.1 == k) = false by simp [h], if_neg h]

theorem hasKey_iff_lookup (l : EntryList) (k : JSVal) :
    hasKey l k = true ↔ ∃ v, lookupKey l k = some v := by
  induction l with
  | nil => simp [hasKey, lookupKey]
  | cons q rest ih =>
    rw [hasKey_cons, lookupKey_cons]
    by_cases h : q.1 = k
    · simp [h]
    · simp [h, ih]

theorem lookup_eq_none_of_not_has (l : EntryList) (k : JSVal)
    (h : hasKey l k = false) : lookupKey l k = none := by
  rcases hl : lookupKey l k with _ | v
  · rfl
  · have := (hasKey_iff_lookup l k).mpr ⟨v, hl⟩
    simp [h] at this

theorem mapSet_of_not_has (l : EntryList) (k v : JSVal)
    (h : hasKey l k = false) : mapSet l k v = l ++ [(k, v)] := by
  unfold mapSet
  rw [show (l.any fun p => p.1 == k) = false from h]
  simp

theorem lookupKey_append (l₁ l₂ : EntryList) (k : JSVal) :
    lookupKey (l₁ ++ l₂) k = (lookupKey l₁ k).or (lookupKey l₂ k) := by
  induction l₁ with
  | nil => simp [lookupKey, Option.none_or]
  | cons q rest ih =>
    rw [List.cons_append, lookupKey_cons, lookupKey_cons]
    by_cases h : q.1 = k
    · simp [h]
    · simp [h, ih]

theorem hasKey_append (l₁ l₂ : EntryList) (k : JSVal) :
    hasKey (l₁ ++ l₂) k = (hasKey l₁ k || hasKey l₂ k) := by
  unfold hasKey
  exact List.any_append

theorem lookupKey_mapSet_self (l : EntryList) (k v : JSVal) :
    lookupKey (mapSet l k v) k = some v := by
  by_cases h : (l.any fun p => p.1 == k) = true
  · unfold mapSet
    rw [if_pos h]
    have aux : ∀ m : EntryList, hasKey m k = true →
        lookupKey (m.map fun p => if p.1 == k then (p.1, v) else p) k = some v := by
      intro m
      induction m with
      | nil => intro hm; simp [hasKey] at hm
      | cons q rest ih =>
        intro hm
        rw [List.map_cons]
        by_cases hq : q.1 = k
        · simp [lookupKey_cons, hq]
        · rw [show (if (q.1 == k) = true then (q.1, v) else q) = q by simp [hq]]
          rw [lookupKey_cons, if_neg hq]
          rw [hasKey_cons] at hm
          simp [hq] at hm
          exact ih hm
    exact aux l h
  · unfold mapSet
    rw [if_neg h, lookupKey_append,
      lookup_eq_none_of_not_has l k (Bool.eq_false_iff.mpr h)]
    simp [lookupKey_cons, Option.none_or]

theorem lookupKey_mapSet_ne (l : EntryList) (k v k' : JSVal) (hne : k' ≠ k) :
    lookupKey (mapSet l k v) k' = lookupKey l k' := by
  by_cases h : (l.any fun p => p.1 == k) = true
  · unfold mapSet
    rw [if_pos h]
    clear h
    induction l with
    | nil => rfl
    | cons q rest ih =>
      rw [List.map_cons]
      by_cases hq : q.1 = k
      · rw [show (if (q.1 == k) = true then (q.1, v) else q) = (q.1, v) by simp [hq]]
        rw [lookupKey_cons, lookupKey_cons]
        have : ¬ q.1 = k' := fun hh => hne (hh.symm.trans hq)
        simp only [if_neg this]
        exact ih
      · rw [show (if (q.1 == k) = true then (q.1, v) else q) = q by simp [hq]]
        rw [lookupKey_cons, lookupKey_cons]
        by_cases hq' : q.1 = k'
        · simp only [if_pos hq']
        · simp only [if_neg hq']
          exact ih
  · unfold mapSet
    rw [if_neg h, lookupKey_append]
    have hsing : lookupKey [(k, v)] k' = none := by
      rw [lookupKey_cons, if_neg (fun hh : k = k' => hne hh.symm)]
      rfl
    rw [hsing, Option.or_none]

theorem hasKey_mapSet (l : EntryList) (k v k' : JSVal) :
    hasKey (mapSet l k v) k' = (hasKey l k' || k' == k) := by
  by_cases hk : k' = k
  · subst hk
    have h₁ : hasKey (mapSet l k' v) k' = true :=
      (hasKey_iff_lookup _ _).mpr ⟨v, lookupKey_mapSet_self l k' v⟩
    simp [h₁]
  · have h₂ := lookupKey_mapSet_ne l k v k' hk
    have hiff : hasKey (mapSet l k v) k' = true ↔ hasKey l k' = true := by
      rw [hasKey_iff_lookup, hasKey_iff_lookup, h₂]
    rw [Bool.eq_iff_iff.mpr hiff]
    simp [hk]

theorem length_mapSet (l : EntryList) (k v : JSVal) :
    (mapSet l k v).length = if hasKey l k then l.length else l.length + 1 := by
  unfold mapSet hasKey
  by_cases h : (l.any fun p => p.1 == k) = true
  · rw [if_pos h, if_pos h, List.length_map]
  · rw [if_neg h, if_neg h]
    simp [List.length_append]

theorem mapDelete_eq_self (l : EntryList) (k : JSVal)
    (h : ∀ p ∈ l, p.1 ≠ k) : mapDelete l k = l := by
  unfold mapDelete
  exact List.filter_eq_self.mpr fun p hp => by simp [h p hp]

theorem length_mapDelete_of_has (l : EntryList) (k : JSVal)
    (hnd : (l.map Prod.fst).Nodup) (h : hasKey l k = true) :
    l.length = (mapDelete l k).length + 1 := by
  induction l with
  | nil => simp [hasKey] at h
  | cons q rest ih =>
    rw [List.map_cons, List.nodup_cons] at hnd
    by_cases hq : q.1 = k
    · have hrest : ∀ p ∈ rest, p.1 ≠ k := by
        intro p hp hpk
        exact hnd.1 (List.mem_map.mpr ⟨p, hp, by rw [hpk, hq]⟩)
      unfold mapDelete
      rw [List.filter_cons_of_neg (by simp [hq])]
      rw [show List.filter (fun p => !(p.1 == k)) rest = rest from
        mapDelete_eq_self rest k hrest]
      simp
    · rw [hasKey_cons] at h
      simp [hq] at h
      unfold mapDelete
      rw [List.filter_cons_of_pos (by simp [hq])]
      simp [show rest.length = (mapDelete rest k).length + 1 from ih hnd.2 h,
        mapDelete]

/-- C1 counterexample: setting the value `undefined` under a fresh key and
reading it back yields `None()`, not `Some(undefined)`, so the claimed
`get(k) == Some(v)` after `set(k, v)` fails for `v = undefined`. -/
theorem set_get_counterexample :
    ((CollectionTS.fromIt []).set (JSVal.strV "k") JSVal.undef).get
        (JSVal.strV "k") = TsOption.None ∧
    (TsOption.None : TsOption JSVal) ≠ TsOption.Some JSVal.undef := by
  exact ⟨rfl, by decide⟩

/-- C1 (amended): `Collection.from([]).size` is `0`; after `set(k, v)` the
read `get(k)` returns `Some(v)` for every value `v` other than `undefined`
(for `v = undefined` it returns `None()`, see the counterexample); and
`set` grows `size` by exactly 1 when the key was absent and by 0 when it
was present. -/
theorem from_empty_set_get_size (c : CollectionTS) (k v : JSVal) :
    (CollectionTS.fromIt []).size = 0 ∧
    (v ≠ JSVal.undef → (c.set k v).get k = TsOption.Some v) ∧
    (c.set k v).size = (if c.has k then c.size else c.size + 1) := by
  refine ⟨rfl, ?_, ?_⟩
  · intro hv
    unfold CollectionTS.get CollectionTS.set getList
    rw [lookupKey_mapSet_self]
    simp [hv]
  · unfold CollectionTS.size CollectionTS.set CollectionTS.has
    exact length_mapSet c.entries k v

/-- Witness for the amended C1 at a concrete input. -/
theorem from_empty_set_get_size_witness :
    ((CollectionTS.fromIt []).set (JSVal.strV "foo") (JSVal.numV 1)).get
        (JSVal.strV "foo") = TsOption.Some (JSVal.numV 1) ∧
    ((CollectionTS.fromIt []).set (JSVal.strV "foo") (JSVal.numV 1)).size = 1 := by
  have h := from_empty_set_get_size (CollectionTS.fromIt [])
    (JSVal.strV "foo") (JSVal.numV 1)
  exact ⟨h.2.1 (by decide), by rw [h.2.2]; rfl⟩

/-- C10: an entry whose stored value is `undefined` is seen by `has` and
counted by `size` (deleting it shrinks `size` by one), yet `get` returns
`None()` for it; in general `get(k).isSome()` holds iff the key is present
with a stored value other than `undefined`, which differs from `has(k)`. -/
theorem get_isSome_iff_has_defined (c : CollectionTS) (k : JSVal)
    (hnd : (c.entries.map Prod.fst).Nodup) :
    ((c.get k).isSome = true ↔
      ∃ v, lookupKey c.entries k = some v ∧ v ≠ JSVal.undef) ∧
    (lookupKey c.entries k = some JSVal.undef →
      c.has k = true ∧ c.get k = TsOption.None ∧
      c.size = ((c.del k).1.size) + 1) := by
  constructor
  · unfold CollectionTS.get getList
    rcases hl : lookupKey c.entries k with _ | v
    · simp [TsOption.isSome]
    · by_cases hv : v = JSVal.undef
      · simp [hv, TsOption.isSome]
      · simp [show (v == JSVal.undef) = false by simp [hv], TsOption.isSome, hv]
  · intro hu
    refine ⟨(hasKey_iff_lookup _ _).mpr ⟨_, hu⟩, ?_, ?_⟩
    · unfold CollectionTS.get getList
      rw [hu]
      rfl
    · unfold CollectionTS.size CollectionTS.del
      exact length_mapDelete_of_has c.entries k hnd
        ((hasKey_iff_lookup _ _).mpr ⟨_, hu⟩)

/-- Witness for C10 at a concrete collection storing `undefined`. -/
theorem get_isSome_iff_has_defined_witness :
    (⟨[(JSVal.strV "k", JSVal.undef)]⟩ : CollectionTS).has (JSVal.strV "k") = true ∧
    (⟨[(JSVal.strV "k", JSVal.undef)]⟩ : CollectionTS).get (JSVal.strV "k") = TsOption.None ∧
    (⟨[(JSVal.strV "k", JSVal.undef)]⟩ : CollectionTS).size =
      ((⟨[(JSVal.strV "k", JSVal.undef)]⟩ : CollectionTS).del (JSVal.strV "k")).1.size + 1 :=
  (get_isSome_iff_has_defined ⟨[(JSVal.strV "k", JSVal.undef)]⟩ (JSVal.strV "k")
    (by decide)).2 (by decide)

/-! ## The diff and symDiff loops -/

theorem foldl_setIf (cond : JSVal → Bool) (a : EntryList) :
    ∀ acc : EntryList,
      (a.map Prod.fst).Nodup →
      (∀ k, hasKey acc k = true → k ∉ a.map Prod.fst) →
      a.foldl (fun ac p => if cond p.1 then ac else mapSet ac p.1 p.2) acc
        = acc ++ a.filter (fun p => !(cond p.1)) := by
  induction a with
  | nil =>
    intro acc _ _
    simp
  | cons q rest ih =>
    intro acc hnd hdisj
    rw [List.map_cons, List.nodup_cons] at hnd
    rw [List.foldl_cons]
    by_cases hc : cond q.1 = true
    · rw [if_pos hc, List.filter_cons_of_neg (by simp [hc])]
      exact ih acc hnd.2 fun k hk hmem =>
        hdisj k hk (by rw [List.map_cons]; exact List.mem_cons_of_mem _ hmem)
    · rw [if_neg hc, List.filter_cons_of_pos (by simp [hc])]
      have hq : hasKey acc q.1 = false := by
        rcases hb : hasKey acc q.1 with _ | _
        · rfl
        · exact absurd (by rw [List.map_cons]; exact List.mem_cons_self _ _)
            (hdisj q.1 hb)
      rw [mapSet_of_not_has acc q.1 q.2 hq]
      have hstep := ih (acc ++ [(q.1, q.2)]) hnd.2 ?_
      · rw [show ((q.1, q.2) : JSVal × JSVal) = q from rfl] at hstep
        rw [hstep, List.append_assoc]
        rfl
      · intro k hk hmem
        rw [hasKey_append] at hk
        rcases Bool.or_eq_true_iff.mp hk with hk₁ | hk₂
        · exact hdisj k hk₁ (by rw [List.map_cons]; exact List.mem_cons_of_mem _ hmem)
        · rw [hasKey_cons] at hk₂
          simp only [hasKey, List.any_nil, Bool.or_false] at hk₂
          have : q.1 = k := by simpa using hk₂
          exact hnd.1 (this ▸ hmem)

theorem lookupKey_filter_keyCond (cond : JSVal → Bool) (l : EntryList)
    (k : JSVal) :
    lookupKey (l.filter fun p => !(cond p.1)) k
      = if cond k then none else lookupKey l k := by
  induction l with
  | nil => simp [lookupKey]
  | cons q rest ih =>
    by_cases hc : cond q.1 = true
    · rw [List.filter_cons_of_neg (by simp [hc]), ih, lookupKey_cons]
      by_cases hck : cond k = true
      · rw [if_pos hck, if_pos hck]
      · rw [if_neg hck, if_neg hck,
          if_neg (fun hqk : q.1 = k => hck (hqk ▸ hc))]
    · rw [List.filter_cons_of_pos (by simp [hc]), lookupKey_cons, lookupKey_cons]
      by_cases hqk : q.1 = k
      · rw [if_pos hqk, if_neg (show ¬ cond k = true from fun hck =>
          hc (by rw [hqk]; exact hck)), if_pos hqk]
      · rw [if_neg hqk, ih]
        by_cases hck : cond k = true
        · rw [if_pos hck, if_pos hck]
        · rw [if_neg hck, if_neg hck, if_neg hqk]

theorem hasKey_filter_keyCond (cond : JSVal → Bool) (l : EntryList)
    (k : JSVal) :
    hasKey (l.filter fun p => !(cond p.1)) k = true
      ↔ (cond k = false ∧ hasKey l k = true) := by
  rw [hasKey_iff_lookup]
  constructor
  · rintro ⟨v, hv⟩
    rw [lookupKey_filter_keyCond] at hv
    by_cases hck : cond k = true
    · rw [if_pos hck] at hv; cases hv
    · rw [if_neg hck] at hv
      exact ⟨Bool.eq_false_iff.mpr hck, (hasKey_iff_lookup _ _).mpr ⟨v, hv⟩⟩
  · rintro ⟨hck, hl⟩
    rcases (hasKey_iff_lookup _ _).mp hl with ⟨v, hv⟩
    exact ⟨v, by rw [lookupKey_filter_keyCond, hck]; simpa using hv⟩

theorem hasKey_of_mem_keys (l : EntryList) (k : JSVal)
    (hmem : k ∈ l.map Prod.fst) : hasKey l k = true := by
  rcases List.mem_map.mp hmem with ⟨q, hq, hqk⟩
  exact List.any_eq_true.mpr ⟨q, hq, by simp [hqk]⟩

theorem diff_eq_filter (a b : CollectionTS)
    (ha : (a.entries.map Prod.fst).Nodup) :
    (a.diff b).entries
      = a.entries.filter (fun p => !(hasKey b.entries p.1)) := by
  show a.entries.foldl
      (fun acc p => if hasKey b.entries p.1 then acc else mapSet acc p.1 p.2) []
    = _
  rw [foldl_setIf (fun k => hasKey b.entries k) a.entries [] ha
    (fun k hk => by cases hk)]
  rw [List.nil_append]

theorem symDiff_eq_append (a b : CollectionTS)
    (ha : (a.entries.map Prod.fst).Nodup)
    (hb : (b.entries.map Prod.fst).Nodup) :
    (a.symDiff b).entries
      = a.entries.filter (fun p => !(hasKey b.entries p.1))
        ++ b.entries.filter (fun p => !(hasKey a.entries p.1)) := by
  have hdisj : ∀ k,
      hasKey (a.entries.filter fun p => !(hasKey b.entries p.1)) k = true →
      k ∉ b.entries.map Prod.fst := by
    intro k hk hmem
    have h₂ := (hasKey_filter_keyCond (fun k => hasKey b.entries k)
      a.entries k).mp hk
    rw [hasKey_of_mem_keys b.entries k hmem] at h₂
    cases h₂.1
  show b.entries.foldl
      (fun acc p => if hasKey a.entries p.1 then acc else mapSet acc p.1 p.2)
      (a.entries.foldl
        (fun acc p => if hasKey b.entries p.1 then acc else mapSet acc p.1 p.2) [])
    = _
  rw [foldl_setIf (fun k => hasKey b.entries k) a.entries [] ha
    (fun k hk => by cases hk)]
  rw [List.nil_append]
  exact foldl_setIf (fun k => hasKey a.entries k) b.entries _ hb hdisj

/-- C5: the keys of `a.symDiff(b)` are exactly the keys of `a.diff(b)`
together with those of `b.diff(a)`; the two diffs have no key in common;
and each key of the symmetric difference maps to the value it has in
whichever of the two collections contains it. -/
theorem symDiff_diff_spec (a b : CollectionTS)
    (ha : (a.entries.map Prod.fst).Nodup)
    (hb : (b.entries.map Prod.fst).Nodup) (k : JSVal) :
    ((a.symDiff b).has k = true ↔
      ((a.diff b).has k = true ∨ (b.diff a).has k = true)) ∧
    (¬ ((a.diff b).has k = true ∧ (b.diff a).has k = true)) ∧
    (a.has k = true → b.has k = false →
      lookupKey (a.symDiff b).entries k = lookupKey a.entries k) ∧
    (b.has k = true → a.has k = false →
      lookupKey (a.symDiff b).entries k = lookupKey b.entries k) := by
  have hsd := symDiff_eq_append a b ha hb
  have hda := diff_eq_filter a b ha
  have hdb := diff_eq_filter b a hb
  refine ⟨?_, ?_, ?_, ?_⟩
  · unfold CollectionTS.has
    rw [hsd, hda, hdb, hasKey_append]
    simp [Bool.or_eq_true_iff]
  · rintro ⟨h₁, h₂⟩
    unfold CollectionTS.has at h₁ h₂
    rw [hda] at h₁
    rw [hdb] at h₂
    have g₁ := (hasKey_filter_keyCond (fun j => hasKey b.entries j)
      a.entries k).mp h₁
    have g₂ := (hasKey_filter_keyCond (fun j => hasKey a.entries j)
      b.entries k).mp h₂
    rw [g₁.2] at g₂
    cases g₂.1
  · intro hak hbk
    unfold CollectionTS.has at hak hbk
    rw [hsd, lookupKey_append, lookupKey_filter_keyCond,
      lookupKey_filter_keyCond, hak, hbk]
    simp
  · intro hbk hak
    unfold CollectionTS.has at hak hbk
    rw [hsd, lookupKey_append, lookupKey_filter_keyCond,
      lookupKey_filter_keyCond, hak, hbk]
    simp

/-- Witness for C5 on the scenario of the spec:
`a = (foo 1, bar 2)`, `b = (foo 3, baz 4)`, at the key `bar`. -/
theorem symDiff_diff_spec_witness :
    ((⟨[(JSVal.strV "foo", JSVal.numV 1), (JSVal.strV "bar", JSVal.numV 2)]⟩ :
        CollectionTS).symDiff
      ⟨[(JSVal.strV "foo", JSVal.numV 3), (JSVal.strV "baz", JSVal.numV 4)]⟩).has
        (JSVal.strV "bar") = true ∧
    lookupKey ((⟨[(JSVal.strV "foo", JSVal.numV 1), (JSVal.strV "bar", JSVal.numV 2)]⟩ :
        CollectionTS).symDiff
      ⟨[(JSVal.strV "foo", JSVal.numV 3), (JSVal.strV "baz", JSVal.numV 4)]⟩).entries
        (JSVal.strV "bar") = some (JSVal.numV 2) := by
  have h := symDiff_diff_spec
    ⟨[(JSVal.strV "foo", JSVal.numV 1), (JSVal.strV "bar", JSVal.numV 2)]⟩
    ⟨[(JSVal.strV "foo", JSVal.numV 3), (JSVal.strV "baz", JSVal.numV 4)]⟩
    (by decide) (by decide) (JSVal.strV "bar")
  refine ⟨h.1.mpr (Or.inl (by decide)), ?_⟩
  rw [h.2.2.1 (by decide) (by decide)]
  decide

/-! ## The iterator protocol of Collection.iter -/

theorem iterTrace_unfolds_iterNext (s : EntryList) :
    iterTrace s =
      match iterNext s with
      | (v, true, _) => [(v, true)]
      | (v, false, rest) => (v, false) :: iterTrace rest := by
  cases s <;> rfl

theorem iterTrace_eq (l : EntryList) :
    iterTrace l = l.map (fun e => (TsOption.Some e, false))
      ++ [(TsOption.None, true)] := by
  induction l with
  | nil => rfl
  | cons e rest ih =>
    rw [show iterTrace (e :: rest)
        = (TsOption.Some e, false) :: iterTrace rest from rfl, ih]
    rfl

/-- C9: the sequence of results delivered by the generator of `iter()` is
exactly `Some(e_1), ..., Some(e_n)` over the entries in insertion order,
each with done=false, followed by one final explicit `None()` sentinel
delivered together with done=true (the return value of the generator,
distinct from plain exhaustion). -/
theorem iter_yields_entries_then_none (c : CollectionTS) :
    c.iter = c.entries.map (fun e => (TsOption.Some e, false))
      ++ [(TsOption.None, true)] :=
  iterTrace_eq c.entries

/-! ## Structured clone and JSON serialization -/

theorem cloneVal_cases (v : JSVal) (n : Nat) :
    (isFunc v = true ∧
      cloneVal v n = .error (.dataCloneError "function could not be cloned")) ∨
    (isFunc v = false ∧ ∃ v' n', cloneVal v n = .ok (v', n') ∧
      cloneShape v v' = true ∧ n ≤ n' ∧
      (∀ j, v' = JSVal.obj j → n ≤ j ∧ j < n')) := by
  cases v with
  | func i => exact Or.inl ⟨rfl, rfl⟩
  | obj i =>
    refine Or.inr ⟨rfl, JSVal.obj n, n + 1, rfl, rfl, Nat.le_succ n, ?_⟩
    intro j hj
    cases hj
    exact ⟨Nat.le_refl n, Nat.lt_succ_self n⟩
  | undef => exact Or.inr ⟨rfl, JSVal.undef, n, rfl, rfl, Nat.le_refl n,
      fun j hj => by simp at hj⟩
  | nullV => exact Or.inr ⟨rfl, JSVal.nullV, n, rfl, rfl, Nat.le_refl n,
      fun j hj => by simp at hj⟩
  | boolV b => exact Or.inr ⟨rfl, JSVal.boolV b, n, rfl, by simp [cloneShape],
      Nat.le_refl n, fun j hj => by simp at hj⟩
  | numV m => exact Or.inr ⟨rfl, JSVal.numV m, n, rfl, by simp [cloneShape],
      Nat.le_refl n, fun j hj => by simp at hj⟩
  | strV s => exact Or.inr ⟨rfl, JSVal.strV s, n, rfl, by simp [cloneShape],
      Nat.le_refl n, fun j hj => by simp at hj⟩
  | bigintV m => exact Or.inr ⟨rfl, JSVal.bigintV m, n, rfl, by simp [cloneShape],
      Nat.le_refl n, fun j hj => by simp at hj⟩

theorem cloneLoop_spec (l : EntryList) : ∀ (acc : EntryList) (n : Nat),
    (l.map Prod.fst).Nodup →
    (∀ k, hasKey acc k = true → k ∉ l.map Prod.fst) →
    ((∃ e, cloneLoop l acc n = .error e) ↔ ∃ p ∈ l, isFunc p.2 = true) ∧
    (∀ res n', cloneLoop l acc n = .ok (res, n') →
      ∃ tail, res = acc ++ tail ∧
        tail.map Prod.fst = l.map Prod.fst ∧
        List.Forall₂ (fun v w => cloneShape v w = true)
          (l.map Prod.snd) (tail.map Prod.snd) ∧
        n ≤ n' ∧
        (∀ q ∈ tail, ∀ j, q.2 = JSVal.obj j → n ≤ j ∧ j < n')) := by
  induction l with
  | nil =>
    intro acc n _ _
    constructor
    · constructor
      · rintro ⟨e, he⟩
        simp [cloneLoop] at he
      · rintro ⟨p, hp, -⟩
        cases hp
    · intro res n' h
      simp only [cloneLoop, Except.ok.injEq, Prod.mk.injEq] at h
      obtain ⟨h₁, h₂⟩ := h
      subst h₁
      subst h₂
      exact ⟨[], by simp, rfl, List.Forall₂.nil, Nat.le_refl n,
        fun q hq => by cases hq⟩
  | cons hd rest ih =>
    obtain ⟨k, v⟩ := hd
    intro acc n hnd hdisj
    rw [List.map_cons, List.nodup_cons] at hnd
    rcases cloneVal_cases v n with ⟨hf, herr⟩ | ⟨hf, v', n₀, hok, hshape, hle, hobj⟩
    · have hred : cloneLoop ((k, v) :: rest) acc n
          = .error (.dataCloneError "function could not be cloned") := by
        simp [cloneLoop, herr]
      constructor
      · constructor
        · intro _
          exact ⟨(k, v), List.mem_cons_self _ _, hf⟩
        · intro _
          exact ⟨_, hred⟩
      · intro res n' h
        rw [hred] at h
        simp at h
    · have hred : cloneLoop ((k, v) :: rest) acc n
          = cloneLoop rest (mapSet acc k v') n₀ := by
        simp [cloneLoop, hok]
      have hkacc : hasKey acc k = false := by
        rcases hb : hasKey acc k with _ | _
        · rfl
        · exact absurd (by rw [List.map_cons]; exact List.mem_cons_self _ _)
            (hdisj k hb)
      have hset : mapSet acc k v' = acc ++ [(k, v')] :=
        mapSet_of_not_has acc k v' hkacc
      have hdisj' : ∀ j, hasKey (acc ++ [(k, v')]) j = true →
          j ∉ rest.map Prod.fst := by
        intro j hj hmem
        rw [hasKey_append] at hj
        rcases Bool.or_eq_true_iff.mp hj with h₁ | h₂
        · exact hdisj j h₁ (by rw [List.map_cons]; exact List.mem_cons_of_mem _ hmem)
        · have : k = j := by simpa [hasKey] using h₂
          exact hnd.1 (this ▸ hmem)
      have IH := ih (acc ++ [(k, v')]) n₀ hnd.2 hdisj'
      rw [hset] at hred
      constructor
      · rw [hred]
        constructor
        · intro he
          rcases IH.1.mp he with ⟨p, hp, hfp⟩
          exact ⟨p, List.mem_cons_of_mem _ hp, hfp⟩
        · rintro ⟨p, hp, hfp⟩
          rcases List.mem_cons.mp hp with hpe | hpm
          · rw [hpe] at hfp
            rw [hf] at hfp
            cases hfp
          · exact IH.1.mpr ⟨p, hpm, hfp⟩
      · intro res n' h
        rw [hred] at h
        rcases IH.2 res n' h with ⟨tail, hres, hkeys, hshapes, hle', hbound⟩
        refine ⟨(k, v') :: tail, ?_, ?_, ?_, Nat.le_trans hle hle', ?_⟩
        · rw [hres, List.append_assoc]
          rfl
        · rw [List.map_cons, List.map_cons, hkeys]
        · rw [List.map_cons, List.map_cons]
          exact List.Forall₂.cons hshape hshapes
        · intro q hq j hj
          rcases List.mem_cons.mp hq with hqe | hqm
          · rw [hqe] at hj
            rcases hobj j hj with ⟨h₁, h₂⟩
            exact ⟨h₁, Nat.lt_of_lt_of_le h₂ hle'⟩
          · rcases hbound q hqm j hj with ⟨h₁, h₂⟩
            exact ⟨Nat.le_trans hle h₁, h₂⟩

theorem jsonOfVal_err_iff (v : JSVal) :
    (∃ e, jsonOfVal v = .error e) ↔ isBigint v = true := by
  cases v <;> simp [jsonOfVal, isBigint]

theorem jsonOfEntry_err_iff (p : JSVal × JSVal) :
    (∃ e, jsonOfEntry p = .error e) ↔
      (isBigint p.1 = true ∨ isBigint p.2 = true) := by
  unfold jsonOfEntry
  rcases h₁ : jsonOfVal p.1 with e₁ | s₁
  · constructor
    · intro _
      exact Or.inl ((jsonOfVal_err_iff p.1).mp ⟨e₁, h₁⟩)
    · intro _
      exact ⟨e₁, rfl⟩
  · have hb₁ : isBigint p.1 = false := by
      rcases hb : isBigint p.1 with _ | _
      · rfl
      · rcases (jsonOfVal_err_iff p.1).mpr hb with ⟨e, he⟩
        rw [h₁] at he
        simp at he
    rcases h₂ : jsonOfVal p.2 with e₂ | s₂
    · constructor
      · intro _
        exact Or.inr ((jsonOfVal_err_iff p.2).mp ⟨e₂, h₂⟩)
      · intro _
        exact ⟨e₂, rfl⟩
    · have hb₂ : isBigint p.2 = false := by
        rcases hb : isBigint p.2 with _ | _
        · rfl
        · rcases (jsonOfVal_err_iff p.2).mpr hb with ⟨e, he⟩
          rw [h₂] at he
          simp at he
      constructor
      · rintro ⟨e, he⟩
        simp at he
      · rintro (hb | hb)
        · rw [hb₁] at hb
          cases hb
        · rw [hb₂] at hb
          cases hb

theorem jsonParts_err_iff (l : EntryList) :
    (∃ e, jsonParts l = .error e) ↔
      ∃ p ∈ l, isBigint p.1 = true ∨ isBigint p.2 = true := by
  induction l with
  | nil =>
    constructor
    · rintro ⟨e, he⟩
      simp [jsonParts] at he
    · rintro ⟨p, hp, -⟩
      cases hp
  | cons p rest ih =>
    unfold jsonParts
    rcases h₁ : jsonOfEntry p with e | s
    · constructor
      · intro _
        exact ⟨p, List.mem_cons_self _ _, (jsonOfEntry_err_iff p).mp ⟨e, h₁⟩⟩
      · intro _
        exact ⟨e, rfl⟩
    · rcases h₂ : jsonParts rest with e | ss
      · constructor
        · intro _
          rcases ih.mp ⟨e, h₂⟩ with ⟨q, hq, hb⟩
          exact ⟨q, List.mem_cons_of_mem _ hq, hb⟩
        · intro _
          exact ⟨e, rfl⟩
      · constructor
        · rintro ⟨e, he⟩
          simp at he
        · rintro ⟨q, hq, hb⟩
          rcases List.mem_cons.mp hq with hqe | hqm
          · rcases (jsonOfEntry_err_iff p).mpr (hqe ▸ hb) with ⟨e, he⟩
            rw [h₁] at he
            simp at he
          · rcases ih.mpr ⟨q, hqm, hb⟩ with ⟨e, he⟩
            rw [h₂] at he
            simp at he

theorem jsonOfEntries_err_iff (l : EntryList) :
    (∃ e, jsonOfEntries l = .error e) ↔
      ∃ p ∈ l, isBigint p.1 = true ∨ isBigint p.2 = true := by
  unfold jsonOfEntries
  rcases h : jsonParts l with e | parts
  · constructor
    · intro _
      exact (jsonParts_err_iff l).mp ⟨e, h⟩
    · intro _
      exact ⟨e, rfl⟩
  · constructor
    · rintro ⟨e, he⟩
      simp at he
    · intro hb
      rcases (jsonParts_err_iff l).mpr hb with ⟨e, he⟩
      rw [h] at he
      simp at he

/-- C7: `clone` and `toJSON` convert every deep-copy or serialization
failure into `Err` instead of letting the exception escape: `clone` fails
exactly when some stored value is a function reference (the values the
model cannot structured-clone), carrying the raised `DataCloneError`, and
`toJSON` fails exactly when some key or value is a bigint, carrying the
raised `TypeError`; on success `clone` returns `Ok` of a new collection
with the same keys in the same insertion order whose values are structured
clones of the originals, object references among them freshly allocated
(so distinct from every object reference stored in the receiver); both
methods write only into a fresh result, so the receiver is unchanged. -/
theorem clone_toJSON_spec (c : CollectionTS) (n : Nat)
    (hnd : (c.entries.map Prod.fst).Nodup) :
    ((∃ e, c.clone n = .Err e) ↔ ∃ p ∈ c.entries, isFunc p.2 = true) ∧
    ((∃ e, c.toJSON = .Err e) ↔
      ∃ p ∈ c.entries, isBigint p.1 = true ∨ isBigint p.2 = true) ∧
    (∀ c', c.clone n = .Ok c' →
      c'.entries.map Prod.fst = c.entries.map Prod.fst ∧
      List.Forall₂ (fun v w => cloneShape v w = true)
        (c.entries.map Prod.snd) (c'.entries.map Prod.snd) ∧
      (∀ q ∈ c'.entries, ∀ j, q.2 = JSVal.obj j → n ≤ j) ∧
      ((∀ p ∈ c.entries, ∀ i, p.2 = JSVal.obj i → i < n) →
        ∀ q ∈ c'.entries, ∀ p ∈ c.entries, ∀ j i,
          q.2 = JSVal.obj j → p.2 = JSVal.obj i → j ≠ i)) := by
  have hspec := cloneLoop_spec c.entries [] n hnd (fun k hk => by cases hk)
  refine ⟨?_, ?_, ?_⟩
  · unfold CollectionTS.clone
    rcases h : cloneLoop c.entries [] n with e | rn
    · constructor
      · intro _
        exact hspec.1.mp ⟨e, h⟩
      · intro _
        exact ⟨e, rfl⟩
    · obtain ⟨res, n'⟩ := rn
      constructor
      · rintro ⟨e, he⟩
        simp at he
      · intro hex
        rcases hspec.1.mpr hex with ⟨e, he⟩
        rw [h] at he
        simp at he
  · unfold CollectionTS.toJSON
    rcases h : jsonOfEntries c.entries with e | s
    · constructor
      · intro _
        exact (jsonOfEntries_err_iff c.entries).mp ⟨e, h⟩
      · intro _
        exact ⟨e, rfl⟩
    · constructor
      · rintro ⟨e, he⟩
        simp at he
      · intro hb
        rcases (jsonOfEntries_err_iff c.entries).mpr hb with ⟨e, he⟩
        rw [h] at he
        simp at he
  · intro c' hc
    unfold CollectionTS.clone at hc
    rcases h : cloneLoop c.entries [] n with e | rn
    · rw [h] at hc
      simp at hc
    · obtain ⟨res, n'⟩ := rn
      rw [h] at hc
      simp only [TsResult.Ok.injEq] at hc
      rcases hspec.2 res n' h with ⟨tail, hres, hkeys, hshapes, -, hbound⟩
      rw [List.nil_append] at hres
      subst hres
      have hc' : c'.entries = res := by rw [← hc]
      rw [hc']
      refine ⟨hkeys, hshapes, ?_, ?_⟩
      · intro q hq j hj
        exact (hbound q hq j hj).1
      · intro horig q hq p hp j i hqj hpi
        have hnj := (hbound q hq j hqj).1
        have hin := horig p hp i hpi
        exact fun hji => Nat.lt_irrefl i (Nat.lt_of_lt_of_le hin (hji ▸ hnj))

/-- Witness for C7: a function value makes `clone` fail, a bigint value
makes `toJSON` fail, and a collection holding the object reference 0 is
cloned (from id counter 1) into one holding the fresh object reference 1. -/
theorem clone_toJSON_spec_witness :
    (∃ e, (⟨[(JSVal.strV "f", JSVal.func 0)]⟩ : CollectionTS).clone 0
      = TsResult.Err e) ∧
    (∃ e, (⟨[(JSVal.strV "b", JSVal.bigintV 1)]⟩ : CollectionTS).toJSON
      = TsResult.Err e) ∧
    (⟨[(JSVal.strV "foo", JSVal.obj 0)]⟩ : CollectionTS).clone 1
      = TsResult.Ok ⟨[(JSVal.strV "foo", JSVal.obj 1)]⟩ := by
  refine ⟨?_, ?_, rfl⟩
  · exact (clone_toJSON_spec ⟨[(JSVal.strV "f", JSVal.func 0)]⟩ 0
      (by decide)).1.mpr ⟨(JSVal.strV "f", JSVal.func 0), by simp, rfl⟩
  · exact (clone_toJSON_spec ⟨[(JSVal.strV "b", JSVal.bigintV 1)]⟩ 0
      (by decide)).2.1.mpr ⟨(JSVal.strV "b", JSVal.bigintV 1), by simp, Or.inr rfl⟩

/-! ## The union loop -/

theorem foldl_mapSet_append (l : EntryList) : ∀ acc : EntryList,
    (l.map Prod.fst).Nodup →
    (∀ k, hasKey acc k = true → k ∉ l.map Prod.fst) →
    l.foldl (fun ac p => mapSet ac p.1 p.2) acc = acc ++ l := by
  induction l with
  | nil =>
    intro acc _ _
    simp
  | cons q rest ih =>
    intro acc hnd hdisj
    rw [List.map_cons, List.nodup_cons] at hnd
    rw [List.foldl_cons]
    have hq : hasKey acc q.1 = false := by
      rcases hb : hasKey acc q.1 with _ | _
      · rfl
      · exact absurd (by rw [List.map_cons]; exact List.mem_cons_self _ _)
          (hdisj q.1 hb)
    rw [mapSet_of_not_has acc q.1 q.2 hq]
    have hstep := ih (acc ++ [(q.1, q.2)]) hnd.2 ?_
    · rw [show ((q.1, q.2) : JSVal × JSVal) = q from rfl] at hstep
      rw [hstep, List.append_assoc]
      rfl
    · intro k hk hmem
      rw [hasKey_append] at hk
      rcases Bool.or_eq_true_iff.mp hk with hk₁ | hk₂
      · exact hdisj k hk₁ (by rw [List.map_cons]; exact List.mem_cons_of_mem _ hmem)
      · have : q.1 = k := by simpa [hasKey] using hk₂
        exact hnd.1 (this ▸ hmem)

theorem fromList_eq_self (l : EntryList) (hnd : (l.map Prod.fst).Nodup) :
    fromList l = l := by
  unfold fromList
  rw [foldl_mapSet_append l [] hnd (fun k hk => by cases hk)]
  rfl

theorem getList_unwrapE_ok (l : EntryList) (k v : JSVal)
    (hv : lookupKey l k = some v) (hu : v ≠ JSVal.undef) :
    (getList l k).unwrapE = .ok v := by
  unfold getList
  rw [hv]
  show (if (v == JSVal.undef) = true then TsOption.None else TsOption.Some v).unwrapE
    = Except.ok v
  rw [show (v == JSVal.undef) = false by simp [hu]]
  rfl

theorem hasKey_false_of_not_mem (l : EntryList) (k : JSVal)
    (h : k ∉ l.map Prod.fst) : hasKey l k = false := by
  rcases hb : hasKey l k with _ | _
  · rfl
  · exfalso
    rcases List.any_eq_true.mp hb with ⟨p, hp, hpk⟩
    have : p.1 = k := by simpa using hpk
    exact h (List.mem_map.mpr ⟨p, hp, this⟩)

theorem unionLoopCalls_spec (resolve : JSVal → JSVal → JSVal → JSVal)
    (rest : EntryList) : ∀ (acc : EntryList) (calls : List JSVal),
    (rest.map Prod.fst).Nodup →
    (∀ p ∈ rest, lookupKey acc p.1 ≠ some JSVal.undef) →
    ∃ fin, unionLoopCalls resolve acc calls rest
        = .ok (fin, calls ++ (rest.filter fun p =>
            match lookupKey acc p.1 with
            | some va => decide (va ≠ p.2)
            | none => false).map Prod.fst) ∧
      ∀ k, lookupKey fin k =
        match lookupKey rest k with
        | some vb =>
          match lookupKey acc k with
          | some va => some (if va = vb then vb else resolve va vb k)
          | none => some vb
        | none => lookupKey acc k := by
  induction rest with
  | nil =>
    intro acc calls _ _
    refine ⟨acc, by simp [unionLoopCalls], ?_⟩
    intro k
    rfl
  | cons hd tl ih =>
    obtain ⟨k, v⟩ := hd
    intro acc calls hnd hundef
    rw [List.map_cons, List.nodup_cons] at hnd
    have hktl : hasKey tl k = false :=
      hasKey_false_of_not_mem tl k hnd.1
    have hlktl : lookupKey tl k = none :=
      lookup_eq_none_of_not_has tl k hktl
    have hne_tl : ∀ p ∈ tl, p.1 ≠ k := by
      intro p hp hpk
      exact hnd.1 (List.mem_map.mpr ⟨p, hp, hpk⟩)
    by_cases hacc : hasKey acc k = true
    · rcases (hasKey_iff_lookup acc k).mp hacc with ⟨cur, hcur⟩
      have hu : cur ≠ JSVal.undef := by
        intro he
        exact hundef (k, v) (List.mem_cons_self _ _) (by rw [hcur, he])
      have hunw := getList_unwrapE_ok acc k cur hcur hu
      by_cases hcv : cur = v
      · -- identical values: the else branch stores the incoming value
        have hred : unionLoopCalls resolve acc calls ((k, v) :: tl)
            = unionLoopCalls resolve (mapSet acc k v) calls tl := by
          simp [unionLoopCalls, hacc, hunw, hcv]
        have hundef' : ∀ p ∈ tl, lookupKey (mapSet acc k v) p.1 ≠ some JSVal.undef := by
          intro p hp
          rw [lookupKey_mapSet_ne acc k v p.1 (hne_tl p hp)]
          exact hundef p (List.mem_cons_of_mem _ hp)
        rcases ih (mapSet acc k v) calls hnd.2 hundef' with ⟨fin, hfin, hlook⟩
        refine ⟨fin, ?_, ?_⟩
        · rw [hred, hfin]
          have hpredhd : (match lookupKey acc (k, v).1 with
              | some va => decide (va ≠ (k, v).2)
              | none => false) = false := by
            rw [show ((k, v) : JSVal × JSVal).1 = k from rfl, hcur]
            simp [hcv]
          rw [List.filter_cons_of_neg (by simpa using hpredhd)]
          have hcongr := List.filter_congr (l := tl)
            (p := fun p => match lookupKey (mapSet acc k v) p.1 with
              | some va => decide (va ≠ p.2)
              | none => false)
            (q := fun p => match lookupKey acc p.1 with
              | some va => decide (va ≠ p.2)
              | none => false)
            (fun p hp => by simp only [lookupKey_mapSet_ne acc k v p.1 (hne_tl p hp)])
          rw [hcongr]
        · intro k'
          by_cases hk' : k' = k
          · subst hk'
            rw [hlook k', hlktl, lookupKey_cons, if_pos rfl, hcur,
              lookupKey_mapSet_self]
            simp [hcv]
          · have h₁ := hlook k'
            rw [lookupKey_mapSet_ne acc k v k' hk'] at h₁
            rw [lookupKey_cons, if_neg (fun hh : k = k' => hk' hh.symm)]
            exact h₁
      · -- differing values: the resolver branch
        have hred : unionLoopCalls resolve acc calls ((k, v) :: tl)
            = unionLoopCalls resolve (mapSet acc k (resolve cur v k))
                (calls ++ [k]) tl := by
          simp [unionLoopCalls, hacc, hunw, hcv]
        have hundef' : ∀ p ∈ tl,
            lookupKey (mapSet acc k (resolve cur v k)) p.1 ≠ some JSVal.undef := by
          intro p hp
          rw [lookupKey_mapSet_ne acc k _ p.1 (hne_tl p hp)]
          exact hundef p (List.mem_cons_of_mem _ hp)
        rcases ih (mapSet acc k (resolve cur v k)) (calls ++ [k]) hnd.2 hundef'
          with ⟨fin, hfin, hlook⟩
        refine ⟨fin, ?_, ?_⟩
        · rw [hred, hfin]
          have hpredhd : (match lookupKey acc (k, v).1 with
              | some va => decide (va ≠ (k, v).2)
              | none => false) = true := by
            rw [show ((k, v) : JSVal × JSVal).1 = k from rfl, hcur]
            simp [hcv]
          rw [List.filter_cons_of_pos (by simpa using hpredhd)]
          have hcongr := List.filter_congr (l := tl)
            (p := fun p => match lookupKey (mapSet acc k (resolve cur v k)) p.1 with
              | some va => decide (va ≠ p.2)
              | none => false)
            (q := fun p => match lookupKey acc p.1 with
              | some va => decide (va ≠ p.2)
              | none => false)
            (fun p hp => by simp only [lookupKey_mapSet_ne acc k (resolve cur v k) p.1 (hne_tl p hp)])
          rw [hcongr, List.map_cons, List.append_assoc]
          rfl
        · intro k'
          by_cases hk' : k' = k
          · subst hk'
            rw [hlook k', hlktl, lookupKey_cons, if_pos rfl, hcur,
              lookupKey_mapSet_self]
            simp [hcv]
          · have h₁ := hlook k'
            rw [lookupKey_mapSet_ne acc k _ k' hk'] at h₁
            rw [lookupKey_cons, if_neg (fun hh : k = k' => hk' hh.symm)]
            exact h₁
    · -- key absent from the accumulator: insert the incoming value directly
      have hred : unionLoopCalls resolve acc calls ((k, v) :: tl)
          = unionLoopCalls resolve (mapSet acc k v) calls tl := by
        simp [unionLoopCalls, hacc]
      have hlkacc : lookupKey acc k = none :=
        lookup_eq_none_of_not_has acc k (Bool.eq_false_iff.mpr hacc)
      have hundef' : ∀ p ∈ tl, lookupKey (mapSet acc k v) p.1 ≠ some JSVal.undef := by
        intro p hp
        rw [lookupKey_mapSet_ne acc k v p.1 (hne_tl p hp)]
        exact hundef p (List.mem_cons_of_mem _ hp)
      rcases ih (mapSet acc k v) calls hnd.2 hundef' with ⟨fin, hfin, hlook⟩
      refine ⟨fin, ?_, ?_⟩
      · rw [hred, hfin]
        have hpredhd : (match lookupKey acc (k, v).1 with
            | some va => decide (va ≠ (k, v).2)
            | none => false) = false := by
          rw [show ((k, v) : JSVal × JSVal).1 = k from rfl, hlkacc]
        rw [List.filter_cons_of_neg (by simpa using hpredhd)]
        have hcongr := List.filter_congr (l := tl)
          (p := fun p => match lookupKey (mapSet acc k v) p.1 with
            | some va => decide (va ≠ p.2)
            | none => false)
          (q := fun p => match lookupKey acc p.1 with
            | some va => decide (va ≠ p.2)
            | none => false)
          (fun p hp => by simp only [lookupKey_mapSet_ne acc k v p.1 (hne_tl p hp)])
        rw [hcongr]
      · intro k'
        by_cases hk' : k' = k
        · subst hk'
          rw [hlook k', hlktl, lookupKey_cons, if_pos rfl, hlkacc,
            lookupKey_mapSet_self]
        · have h₁ := hlook k'
          rw [lookupKey_mapSet_ne acc k v k' hk'] at h₁
          rw [lookupKey_cons, if_neg (fun hh : k = k' => hk' hh.symm)]
          exact h₁

theorem unionLoop_eq_fst (resolve : JSVal → JSVal → JSVal → JSVal)
    (rest : EntryList) : ∀ (acc : EntryList) (calls : List JSVal),
    unionLoop resolve acc rest
      = (unionLoopCalls resolve acc calls rest).map Prod.fst := by
  induction rest with
  | nil =>
    intro acc calls
    rfl
  | cons hd tl ih =>
    obtain ⟨k, v⟩ := hd
    intro acc calls
    by_cases hacc : hasKey acc k = true
    · rcases hg : (getList acc k).unwrapE with e | cur
      · simp [unionLoop, unionLoopCalls, hacc, hg, Except.map]
      · by_cases hcv : cur = v
        · simp only [unionLoop, unionLoopCalls, hacc, hg, hcv, if_true]
          rw [if_neg (by simp)]
          rw [if_neg (by simp)]
          exact ih _ _
        · simp only [unionLoop, unionLoopCalls, hacc, hg, if_true]
          rw [if_pos hcv, if_pos hcv]
          exact ih _ _
    · simp only [unionLoop, unionLoopCalls, hacc, Bool.false_eq_true, if_false]
      exact ih _ _

/-- C3 (amended): provided the receiver stores no `undefined` value at a
key that the other collection also has (otherwise the internal `unwrap`
throws, see the counterexample), `union` starts from a copy of the
receiver and returns a collection whose content at each key is: the value
of `a` for a key only in `a`, the value of `b` for a key only in `b`, and
for a shared key the common value when the two values are identical
(`===`) and `resolve(existing, incoming, key)` when they differ; the
resolver is invoked exactly at the keys present in both collections whose
two values differ by identity, in the iteration order of `b`. -/
theorem union_spec (a b : CollectionTS) (resolve : JSVal → JSVal → JSVal → JSVal)
    (ha : (a.entries.map Prod.fst).Nodup)
    (hb : (b.entries.map Prod.fst).Nodup)
    (hundef : ∀ p ∈ b.entries, lookupKey a.entries p.1 ≠ some JSVal.undef) :
    ∃ u, a.union b resolve = .ok u ∧
      (∀ k, lookupKey u.entries k = unionSpecLookup a b resolve k) ∧
      a.unionCallKeys b resolve = .ok (unionCallsSpec a b) := by
  rcases unionLoopCalls_spec resolve b.entries a.entries [] hb hundef
    with ⟨fin, hfin, hlook⟩
  refine ⟨⟨fin⟩, ?_, ?_, ?_⟩
  · unfold CollectionTS.union
    rw [fromList_eq_self a.entries ha,
      unionLoop_eq_fst resolve b.entries a.entries [], hfin]
    rfl
  · intro k
    rw [show (CollectionTS.mk fin).entries = fin from rfl, hlook k]
    unfold unionSpecLookup
    rcases lookupKey a.entries k with _ | va <;>
      rcases lookupKey b.entries k with _ | vb <;> rfl
  · unfold CollectionTS.unionCallKeys
    rw [fromList_eq_self a.entries ha, hfin]
    rfl

/-- Witness for the amended C3: with `a = (foo 1, bar 2, o obj#5)` and
`b = (foo 3, baz 4, o obj#5)` and the keep-left resolver, the resolver is
invoked exactly at `foo` (the shared key with identity-different values)
and not at `o` (the shared key holding the identical object reference),
and the result keeps `foo 1`, `bar 2`, `o obj#5` and gains `baz 4`. -/
theorem union_spec_witness :
    CollectionTS.unionCallKeys
        ⟨[(JSVal.strV "foo", JSVal.numV 1), (JSVal.strV "bar", JSVal.numV 2),
          (JSVal.strV "o", JSVal.obj 5)]⟩
        ⟨[(JSVal.strV "foo", JSVal.numV 3), (JSVal.strV "baz", JSVal.numV 4),
          (JSVal.strV "o", JSVal.obj 5)]⟩ (fun va _ _ => va)
      = .ok [JSVal.strV "foo"] ∧
    ∃ u, CollectionTS.union
        ⟨[(JSVal.strV "foo", JSVal.numV 1), (JSVal.strV "bar", JSVal.numV 2),
          (JSVal.strV "o", JSVal.obj 5)]⟩
        ⟨[(JSVal.strV "foo", JSVal.numV 3), (JSVal.strV "baz", JSVal.numV 4),
          (JSVal.strV "o", JSVal.obj 5)]⟩ (fun va _ _ => va)
      = .ok u ∧
      lookupKey u.entries (JSVal.strV "foo") = some (JSVal.numV 1) ∧
      lookupKey u.entries (JSVal.strV "bar") = some (JSVal.numV 2) ∧
      lookupKey u.entries (JSVal.strV "o") = some (JSVal.obj 5) ∧
      lookupKey u.entries (JSVal.strV "baz") = some (JSVal.numV 4) := by
  rcases union_spec
    ⟨[(JSVal.strV "foo", JSVal.numV 1), (JSVal.strV "bar", JSVal.numV 2),
      (JSVal.strV "o", JSVal.obj 5)]⟩
    ⟨[(JSVal.strV "foo", JSVal.numV 3), (JSVal.strV "baz", JSVal.numV 4),
      (JSVal.strV "o", JSVal.obj 5)]⟩ (fun va _ _ => va)
    (by decide) (by decide) (by decide) with ⟨u, hu, hlook, hcalls⟩
  refine ⟨?_, u, hu, ?_, ?_, ?_, ?_⟩
  · rw [hcalls]
    rfl
  · rw [hlook]
    rfl
  · rw [hlook]
    rfl
  · rw [hlook]
    rfl
  · rw [hlook]
    rfl

/-- C3 counterexample: when the receiver stores `undefined` at a key that
the other collection also has, `union` does not return the described
collection at all — the internal `get(key).unwrap()` throws. -/
theorem union_counterexample :
    (⟨[(JSVal.strV "k", JSVal.undef)]⟩ : CollectionTS).union
        ⟨[(JSVal.strV "k", JSVal.numV 1)]⟩ (fun va _ _ => va)
      = .error (.error "called `unwrap()` on a `None`") := rfl

/-- C2: `intersect` and `union` are not total: at a shared key whose
stored value is `undefined`, `has` answers true but `get` returns
`None()`, so the `unwrap` guarding the resolver throws and the exception
escapes both methods. -/
theorem intersect_union_can_throw :
    (⟨[(JSVal.strV "k", JSVal.numV 1)]⟩ : CollectionTS).intersect
        ⟨[(JSVal.strV "k", JSVal.undef)]⟩ (fun va _ _ => va)
      = .error (.error "called `unwrap()` on a `None`") ∧
    (⟨[(JSVal.strV "u", JSVal.undef)]⟩ : CollectionTS).union
        ⟨[(JSVal.strV "u", JSVal.numV 2)]⟩ (fun va _ _ => va)
      = .error (.error "called `unwrap()` on a `None`") := ⟨rfl, rfl⟩
